import Mathlib

/-!
Shallow embedding of the query execution and result-materialization pipeline
of `mcp-clickhouse` (files `src/mcp_clickhouse/db_utils.py` and
`src/mcp_clickhouse/structures.py`), together with proofs of the claimed
properties of `BaseStructure.from_row`, the `HTTPDictCursor` buffer
operations, the `with_clickhouse` scope lifecycle and the `db_fetchone`
facade.

Python dictionaries are modelled as insertion-ordered association lists
(`Row`), with the exact semantics of the operations the source uses:
`d[k] = v` replaces in place or appends (`dset`), `d.pop(k)` removes and
returns the value or raises `KeyError` (`dpop`), `d.setdefault(p, {})[c] = v`
(`dctAdd`), `d.update(d2)` (`dupdate`).  Row values (`Val`) are either
opaque scalars or nested one-level objects, which is all `from_row` ever
produces.
-/

namespace McpClickhouse

/-- A value stored in a result row: an opaque scalar (indexed by a natural
number, since the pipeline never inspects scalar values) or a nested
key-value object as produced by the dotted-key reconciliation. -/
inductive Val where
  | atom : Nat → Val
  | obj : List (String × Val) → Val

/-- A result row: a Python `dict[str, Any]`, i.e. an insertion-ordered
association list from column name to value. -/
abbrev Row := List (String × Val)

/-- The intermediate `dct` of `from_row`: a dict from parent key to a dict
of child keys. -/
abbrev Dct := List (String × Row)

/-- Python errors raised by the embedded code: `KeyError` (from `dict.pop`
on a missing key), `ValueError` (from unpacking `key.split('.')` into two
names when the number of parts is not two), and the
`RuntimeError("out of with_clickhouse() scope")` guard of
`HTTPDictCursor.execute`. -/
inductive PyErr where
  | keyError : PyErr
  | valueError : PyErr
  | scopeError : PyErr
deriving DecidableEq, Repr

/-- Python `d[k]` as a read: the value at key `k`, if present. -/
def dlookup : Row → String → Option Val
  | [], _ => none
  | (k', v') :: r, k => if k' = k then some v' else dlookup r k

/-- Python `d[k] = v`: replace the value in place if `k` is present
(keeping its position), otherwise append the new pair at the end. -/
def dset : Row → String → Val → Row
  | [], k, v => [(k, v)]
  | (k', v') :: r, k, v => if k' = k then (k, v) :: r else (k', v') :: dset r k v

/-- Python `d.pop(k)`: remove key `k`, returning its value and the
remaining dict; `none` models the `KeyError` raised when `k` is absent. -/
def dpop : Row → String → Option (Val × Row)
  | [], _ => none
  | (k', v') :: r, k =>
    if k' = k then some (v', r)
    else (dpop r k).map fun p => (p.1, (k', v') :: p.2)

/-- Python `dct.setdefault(parent, {})[child] = value` on the nested `dct`
of `from_row`. -/
def dctAdd : Dct → String → String → Val → Dct
  | [], p, c, v => [(p, [(c, v)])]
  | (p', m) :: r, p, c, v =>
    if p' = p then (p, dset m c v) :: r else (p', m) :: dctAdd r p c v

/-- Lookup in the nested `dct`. -/
def dctLookup : Dct → String → Option Row
  | [], _ => none
  | (p', m) :: r, p => if p' = p then some m else dctLookup r p

/-- Python `row.update(dct)` at the end of `from_row`: each parent/object
pair of `dct` is written into the row in order, each write replacing any
existing value at the parent key (nested wins) or appending. -/
def dupdate (row : Row) (dct : Dct) : Row :=
  dct.foldl (fun r pm => dset r pm.1 (Val.obj pm.2)) row

/-- Python `key.startswith('@')`. -/
def hasSigil (k : String) : Bool :=
  match k.toList with
  | c :: _ => c = '@'
  | [] => false

/-- Python `key.removeprefix('@')`: drop one leading `'@'` if present. -/
def stripSigil (k : String) : String :=
  if hasSigil k then String.mk (k.toList.drop 1) else k

/-- Python `'.' in key`. -/
def hasDot (k : String) : Bool := k.toList.contains '.'

/-- Python `key.split('.')` on the character list: the list of parts
separated by `'.'`; always non-empty. -/
def splitParts : List Char → List (List Char)
  | [] => [[]]
  | c :: cs =>
    let rest := splitParts cs
    if c = '.' then [] :: rest
    else
      match rest with
      | [] => [[c]]
      | p :: ps => (c :: p) :: ps

/-- Python `parent, child = key.split('.')`: succeeds exactly when the
split has exactly two parts; otherwise unpacking raises `ValueError`. -/
def splitTwo (k : String) : Option (String × String) :=
  match splitParts k.toList with
  | [p, c] => some (String.mk p, String.mk c)
  | _ => none

/-- The loop body of `BaseStructure.from_row`, iterating over the snapshot
`row.copy().items()` while mutating the live row and the accumulator `dct`:

  for key, value in row.copy().items():
      if key.startswith('@'):
          row[key.removeprefix('@')] = row.pop(key)
      if '.' in key:
          parent, child = key.split('.')
          dct.setdefault(parent, {})[child] = value
          row.pop(key)

The state `(row, dct)` is threaded explicitly; a `.error` is a raised
Python exception. -/
def from_row_loop : List (String × Val) → Row → Dct → Except PyErr (Row × Dct)
  | [], row, dct => .ok (row, dct)
  | (k, v) :: rest, row, dct =>
    let step1 : Except PyErr Row :=
      if hasSigil k then
        match dpop row k with
        | some (pv, row') => .ok (dset row' (stripSigil k) pv)
        | none => .error .keyError
      else .ok row
    match step1 with
    | .error e => .error e
    | .ok row =>
      if hasDot k then
        match splitTwo k with
        | some pc =>
          let dct := dctAdd dct pc.1 pc.2 v
          match dpop row k with
          | some pr => from_row_loop rest pr.2 dct
          | none => .error .keyError
        | none => .error .valueError
      else from_row_loop rest row dct

/-- `BaseStructure.from_row`, up to the keyword mapping handed to the
pydantic constructor: run the loop over the snapshot of the row, then
`row.update(dct)`.  The returned `Row` is simultaneously the final state
of the caller's (mutated) dictionary and the keyword mapping from which
`cls(**row)` builds the record; pydantic field validation belongs to the
external collaborator and is not part of the core mapping. -/
def from_row_result (row : Row) : Except PyErr Row :=
  match from_row_loop row row [] with
  | .ok rd => .ok (dupdate rd.1 rd.2)
  | .error e => .error e

/-! Derived notions used to state and prove properties of `from_row`. -/

/-- The keys of a row, in order. -/
def dkeys (r : Row) : List String := r.map Prod.fst

/-- Removal of the (first) entry at a key, leaving the dict unchanged when
the key is absent; `dpop` succeeds exactly on present keys and then returns
the value together with `derase`. -/
def derase : Row → String → Row
  | [], _ => []
  | (k', v') :: r, k => if k' = k then r else (k', v') :: derase r k

/-- The nested `dct` accumulated by the `from_row` loop over a list of
entries, for runs in which every iteration reaches the `dct` update: each
entry whose key splits as `parent.child` contributes
`dct.setdefault(parent, {})[child] = value`. -/
def dctOf : List (String × Val) → Dct → Dct
  | [], dct => dct
  | (k, v) :: rest, dct =>
    match splitTwo k with
    | some pc => dctOf rest (dctAdd dct pc.1 pc.2 v)
    | none => dctOf rest dct

/-- The row state produced by the `from_row` loop over a list of entries,
for runs in which every iteration reaches its `row.pop(key)`: each dotted
key of the list is removed from the row. -/
def eraseDotted (row : Row) (entries : List (String × Val)) : Row :=
  entries.foldl (fun r kv => if hasDot kv.1 then derase r kv.1 else r) row

/-- A key the mapping algorithm handles without raising: no sigil, and at
most one separator character. -/
def niceKey (k : String) : Prop :=
  hasSigil k = false ∧ k.toList.count '.' ≤ 1

/-- A key with two or more separator characters, on which the
`parent, child = key.split('.')` unpacking raises `ValueError`. -/
def multiDot (k : String) : Prop := 2 ≤ k.toList.count '.'

/-- Pointwise (first-occurrence) equality of two rows as key-value maps;
this is equality of the underlying Python dictionaries up to key order. -/
def mEq (r1 r2 : Row) : Prop := ∀ k, dlookup r1 k = dlookup r2 k

/-- Equivalence of two `from_row` outcomes: the same raised error, or
success with rows equal as key-value maps. -/
def resMEq : Except PyErr Row → Except PyErr Row → Prop
  | .ok r1, .ok r2 => mEq r1 r2
  | .error e1, .error e2 => e1 = e2
  | _, _ => False

/-- Equivalence of two `from_row` loop outcomes: the same raised error, or
success with rows equal as key-value maps and equal `dct` accumulators. -/
def resPairMEq : Except PyErr (Row × Dct) → Except PyErr (Row × Dct) → Prop
  | .ok p1, .ok p2 => mEq p1.1 p2.1 ∧ p1.2 = p2.2
  | .error e1, .error e2 => e1 = e2
  | _, _ => False

/-- Two rows that agree everywhere except that the first stores some common
value under key `ka` where the second stores it under key `kb`. -/
def exceptAtEq (ka kb : String) (r1 r2 : Row) : Prop :=
  (∃ w, dlookup r1 ka = some w ∧ dlookup r2 kb = some w) ∧
  dlookup r1 kb = none ∧ dlookup r2 ka = none ∧
  ∀ k, k ≠ ka → k ≠ kb → dlookup r1 k = dlookup r2 k

/-! Embedding of `db_utils.py`: the cursor, the scope manager, and the
query facade. -/

/-- A query: the SQL text; named arguments, the UTC timezone request and
the per-session settings are forwarded verbatim to the external driver and
play no role in the buffering logic. -/
abbrev Query := String

/-- The part of the external driver's query result that
`HTTPDictCursor.execute` inspects: the result's column names and its rows
(`named_results()`). -/
structure QueryResult where
  column_names : List String
  named_results : List Row

/-- The external `AsyncClient`, abstracted as its observable behaviour:
the query result it returns for each query. -/
abbrev AsyncClient := Query → QueryResult

/-- The `urllib3` pool manager handle; the core only ever creates it and
calls `clear()` on it, so it carries no observable state of its own here. -/
abbrev PoolManager := Unit

/-- The module-level mutable slots of `db_utils.py`: `http_pool` and
`http_client`, both initialized to `None`. -/
structure GlobalState where
  http_pool : Option PoolManager
  http_client : Option AsyncClient

/-- `HTTPDictCursor.execute`, acting on the buffer `results` of one cursor
under the published `http_client` slot:

  if http_client is None: raise RuntimeError("out of with_clickhouse() scope")
  result = await http_client.query(...)
  if "total_rows_to_read" in result.column_names: return
  self.results.extend(result.named_results())

Transport behaviour is the external client's; the guard failure is the
distinguished `scopeError`. -/
def HTTPDictCursor.execute (http_client : Option AsyncClient) (query : Query)
    (results : List Row) : Except PyErr (List Row) :=
  match http_client with
  | none => .error .scopeError
  | some client =>
    let result := client query
    if "total_rows_to_read" ∈ result.column_names then .ok results
    else .ok (results ++ result.named_results)

/-- `HTTPDictCursor.fetchone`: pop and return the oldest buffered row, or
`none` when the buffer is empty; returns the row and the new buffer. -/
def HTTPDictCursor.fetchone : List Row → Option Row × List Row
  | [] => (none, [])
  | r :: rs => (some r, rs)

/-- `HTTPDictCursor.fetchall`: return a copy of the whole buffer and clear
it; returns the snapshot and the new (empty) buffer. -/
def HTTPDictCursor.fetchall (results : List Row) : List Row × List Row :=
  (results, [])

/-- N successive `fetchone` calls: the list of returned values and the
final buffer. -/
def HTTPDictCursor.fetchoneN : List Row → Nat → List (Option Row) × List Row
  | buf, 0 => ([], buf)
  | buf, n + 1 =>
    let p := HTTPDictCursor.fetchone buf
    let q := HTTPDictCursor.fetchoneN p.2 n
    (p.1 :: q.1, q.2)

/-- Entry into the `with_clickhouse` scope: a pool manager is constructed
and published to `http_pool`, and a client bound to it is constructed and
published to `http_client` (pool and client construction themselves belong
to the external collaborators and appear as parameters). -/
def with_clickhouse_enter (pool : PoolManager) (client : AsyncClient)
    (s : GlobalState) : GlobalState :=
  { s with http_pool := some pool, http_client := some client }

/-- Exit of the `with_clickhouse` scope (its `finally` block):

  if http_pool is not None: http_pool.clear()
  http_pool = None

The returned Boolean records whether `http_pool.clear()` was called. -/
def with_clickhouse_exit (s : GlobalState) : GlobalState × Bool :=
  ({ s with http_pool := none }, s.http_pool.isSome)

/-- The rows a single `execute` on a fresh cursor leaves in the buffer:
none when the result carries the progress marker column, otherwise the
result's rows. -/
def buffered (client : AsyncClient) (query : Query) : List Row :=
  if "total_rows_to_read" ∈ (client query).column_names then []
  else (client query).named_results

/-- `db_fetchone`: open a fresh cursor, execute, pop the first buffered
row; absent if there is none, otherwise the row mapped through
`from_row`.  (A `None` `query_args` is replaced by `{}` before the call to
the external driver; the remaining buffered rows are discarded with the
cursor.) -/
def db_fetchone (http_client : Option AsyncClient) (query : Query) :
    Except PyErr (Option Row) :=
  match HTTPDictCursor.execute http_client query [] with
  | .error e => .error e
  | .ok buf =>
    match HTTPDictCursor.fetchone buf with
    | (none, _) => .ok none
    | (some r, _) =>
      match from_row_result r with
      | .ok rec => .ok (some rec)
      | .error e => .error e

/-- `db_fetchall`: open a fresh cursor, execute, drain all buffered rows
and map each through `from_row` (an empty drain yields `[]`). -/
def db_fetchall (http_client : Option AsyncClient) (query : Query) :
    Except PyErr (List Row) :=
  match HTTPDictCursor.execute http_client query [] with
  | .error e => .error e
  | .ok buf =>
    (HTTPDictCursor.fetchall buf).1.mapM from_row_result

/-! Concrete external collaborators used in closed counterexample and
witness statements. -/

/-- A client answering every query with an empty, markerless result. -/
def trivialClient : AsyncClient := fun _ => ⟨[], []⟩

/-- A client answering every query with one markerless one-column row. -/
def oneRowClient : AsyncClient := fun _ => ⟨["x"], [[("x", Val.atom 1)]]⟩

/-- A client answering every query with two markerless one-column rows. -/
def twoRowClient : AsyncClient :=
  fun _ => ⟨["x"], [[("x", Val.atom 1)], [("x", Val.atom 2)]]⟩

/-- A client answering every query with a progress-marker result that
nevertheless carries a pseudo-row. -/
def markerClient : AsyncClient :=
  fun _ => ⟨["total_rows_to_read"], [[("total_rows_to_read", Val.atom 5)]]⟩

/-! Basic lemmas about the dictionary operations. -/

theorem dlookup_dset (r : Row) (k : String) (v : Val) (k' : String) :
    dlookup (dset r k v) k' = if k' = k then some v else dlookup r k' := by
  induction r with
  | nil =>
    simp only [dset, dlookup]
    by_cases h : k' = k
    · rw [if_pos h.symm, if_pos h]
    · rw [if_neg (fun hh : k = k' => h hh.symm), if_neg h]
  | cons kv r ih =>
    obtain ⟨k₀, v₀⟩ := kv
    by_cases h₀ : k₀ = k
    · subst h₀
      simp only [dset, if_pos rfl, dlookup]
      by_cases h : k' = k₀
      · rw [if_pos h.symm, if_pos h]
      · rw [if_neg (fun hh : k₀ = k' => h hh.symm), if_neg h,
          if_neg (fun hh : k₀ = k' => h hh.symm)]
    · simp only [dset, if_neg h₀, dlookup]
      by_cases h : k₀ = k'
      · subst h
        rw [if_pos rfl, if_pos rfl, if_neg h₀]
      · rw [if_neg h, if_neg h, ih]

theorem dpop_eq (r : Row) (k : String) :
    dpop r k = (dlookup r k).map (fun v => (v, derase r k)) := by
  induction r with
  | nil => rfl
  | cons kv r ih =>
    obtain ⟨k₀, v₀⟩ := kv
    by_cases h : k₀ = k
    · subst h; simp [dpop, dlookup, derase]
    · simp only [dpop, dlookup, derase, if_neg h, ih]
      cases dlookup r k <;> rfl

theorem dlookup_eq_none_iff (r : Row) (k : String) :
    dlookup r k = none ↔ k ∉ dkeys r := by
  induction r with
  | nil => simp [dlookup, dkeys]
  | cons kv r ih =>
    obtain ⟨k₀, v₀⟩ := kv
    simp only [dlookup, dkeys, List.map_cons, List.mem_cons]
    by_cases h : k₀ = k
    · subst h; simp
    · rw [if_neg h, ih]
      constructor
      · rintro hn (rfl | hm)
        · exact h rfl
        · exact hn (by simpa [dkeys] using hm)
      · intro hn hm
        exact hn (Or.inr (by simpa [dkeys] using hm))

theorem dlookup_isSome_of_mem {r : Row} {k : String} {v : Val} (h : (k, v) ∈ r) :
    (dlookup r k).isSome := by
  induction r with
  | nil => simp at h
  | cons kv r ih =>
    obtain ⟨k₀, v₀⟩ := kv
    rcases List.mem_cons.mp h with h' | h'
    · injection h' with h1 h2
      subst h1
      simp [dlookup]
    · by_cases hk : k₀ = k <;> simp [dlookup, hk, ih h']

theorem dlookup_derase_other {k' k : String} (r : Row) (h : k' ≠ k) :
    dlookup (derase r k) k' = dlookup r k' := by
  induction r with
  | nil => rfl
  | cons kv r ih =>
    obtain ⟨k₀, v₀⟩ := kv
    by_cases h₀ : k₀ = k
    · subst h₀
      have hd : derase ((k₀, v₀) :: r) k₀ = r := by simp [derase]
      rw [hd]
      simp only [dlookup]
      rw [if_neg (fun hh : k₀ = k' => h (hh ▸ rfl))]
    · simp only [derase, if_neg h₀, dlookup, ih]

theorem dlookup_derase_self {r : Row} (k : String) (h : (dkeys r).Nodup) :
    dlookup (derase r k) k = none := by
  induction r with
  | nil => rfl
  | cons kv r ih =>
    obtain ⟨k₀, v₀⟩ := kv
    simp only [dkeys, List.map_cons, List.nodup_cons] at h
    by_cases h₀ : k₀ = k
    · subst h₀
      simp only [derase, if_pos rfl]
      exact (dlookup_eq_none_iff r k₀).mpr h.1
    · simp [derase, dlookup, h₀, ih h.2]

theorem dkeys_derase_sublist (r : Row) (k : String) :
    List.Sublist (dkeys (derase r k)) (dkeys r) := by
  induction r with
  | nil => simp [derase, dkeys]
  | cons kv r ih =>
    obtain ⟨k₀, v₀⟩ := kv
    by_cases h₀ : k₀ = k
    · simp only [derase, if_pos h₀, dkeys, List.map_cons]
      exact List.sublist_cons_self _ _
    · simp only [derase, if_neg h₀, dkeys, List.map_cons]
      exact ih.cons₂ _

theorem nodup_derase {r : Row} (k : String) (h : (dkeys r).Nodup) :
    (dkeys (derase r k)).Nodup :=
  (dkeys_derase_sublist r k).nodup h

theorem dkeys_dset (r : Row) (k : String) (v : Val) :
    dkeys (dset r k v) = if k ∈ dkeys r then dkeys r else dkeys r ++ [k] := by
  induction r with
  | nil => simp [dset, dkeys]
  | cons kv r ih =>
    obtain ⟨k₀, v₀⟩ := kv
    by_cases h₀ : k₀ = k
    · subst h₀
      rw [if_pos (by simp [dkeys])]
      simp [dset, dkeys]
    · simp only [dset, if_neg h₀, dkeys, List.map_cons] at ih ⊢
      by_cases hm : k ∈ List.map Prod.fst r
      · rw [if_pos hm] at ih
        rw [ih, if_pos (List.mem_cons.mpr (Or.inr hm))]
      · rw [if_neg hm] at ih
        rw [ih, if_neg (fun hc => by
          rcases List.mem_cons.mp hc with h1 | h2
          · exact h₀ h1.symm
          · exact hm h2)]
        simp

theorem nodup_dset {r : Row} (k : String) (v : Val) (h : (dkeys r).Nodup) :
    (dkeys (dset r k v)).Nodup := by
  rw [dkeys_dset]
  by_cases hm : k ∈ dkeys r
  · simpa [hm] using h
  · rw [if_neg hm]
    exact List.Nodup.append h (List.nodup_singleton k)
      (List.disjoint_singleton.mpr hm)

/-! Lemmas about the key-splitting helpers. -/

theorem splitParts_ne_nil (cs : List Char) : splitParts cs ≠ [] := by
  induction cs with
  | nil => simp [splitParts]
  | cons c cs ih =>
    simp only [splitParts]
    by_cases h : c = '.'
    · simp [h]
    · rw [if_neg h]
      cases hr : splitParts cs with
      | nil => simp
      | cons p ps => simp

theorem splitParts_length (cs : List Char) :
    (splitParts cs).length = cs.count '.' + 1 := by
  induction cs with
  | nil => simp [splitParts]
  | cons c cs ih =>
    simp only [splitParts]
    by_cases h : c = '.'
    · subst h
      simp [List.count_cons, ih]
    · rw [if_neg h]
      cases hr : splitParts cs with
      | nil => exact absurd hr (splitParts_ne_nil cs)
      | cons p ps =>
        rw [hr] at ih
        simp only [List.length_cons] at ih ⊢
        simp [List.count_cons, h, ih]

theorem splitParts_eq_single {cs p : List Char} (h : splitParts cs = [p]) :
    cs = p := by
  induction cs generalizing p with
  | nil =>
    simp only [splitParts] at h
    injection h with h1 h2
  | cons c cs ih =>
    simp only [splitParts] at h
    by_cases hc : c = '.'
    · rw [if_pos hc] at h
      injection h with h1 h2
      exact absurd h2 (splitParts_ne_nil cs)
    · rw [if_neg hc] at h
      cases hsp : splitParts cs with
      | nil => exact absurd hsp (splitParts_ne_nil cs)
      | cons q qs =>
        rw [hsp] at h
        injection h with h1 h2
        subst h2
        rw [← h1, ih (by rw [hsp])]

theorem splitParts_eq_pair {cs p c2 : List Char} (h : splitParts cs = [p, c2]) :
    cs = p ++ '.' :: c2 := by
  induction cs generalizing p with
  | nil =>
    simp only [splitParts] at h
    injection h with _ h2
    exact absurd h2.symm (by simp)
  | cons c cs ih =>
    simp only [splitParts] at h
    by_cases hc : c = '.'
    · rw [if_pos hc] at h
      injection h with h1 h2
      subst hc
      rw [← h1]
      simp [splitParts_eq_single h2]
    · rw [if_neg hc] at h
      cases hsp : splitParts cs with
      | nil => exact absurd hsp (splitParts_ne_nil cs)
      | cons q qs =>
        rw [hsp] at h
        injection h with h1 h2
        subst h2
        rw [← h1, ih (by rw [hsp])]
        simp

theorem splitParts_parts_no_dot {cs p : List Char}
    (h : p ∈ splitParts cs) : '.' ∉ p := by
  induction cs generalizing p with
  | nil =>
    simp only [splitParts, List.mem_singleton] at h
    simp [h]
  | cons c cs ih =>
    simp only [splitParts] at h
    by_cases hc : c = '.'
    · rw [if_pos hc] at h
      rcases List.mem_cons.mp h with rfl | h'
      · simp
      · exact ih h'
    · rw [if_neg hc] at h
      cases hsp : splitParts cs with
      | nil => exact absurd hsp (splitParts_ne_nil cs)
      | cons q qs =>
        rw [hsp] at h
        rcases List.mem_cons.mp h with rfl | h'
        · intro hd
          rcases List.mem_cons.mp hd with h1 | h1
          · exact hc h1.symm
          · exact ih (hsp ▸ List.mem_cons_self q qs) h1
        · exact ih (hsp ▸ List.mem_cons.mpr (Or.inr h'))

theorem splitTwo_some_toList {k p c : String} (h : splitTwo k = some (p, c)) :
    k.toList = p.toList ++ '.' :: c.toList := by
  unfold splitTwo at h
  rcases hsp : splitParts k.toList with _ | ⟨p', _ | ⟨c', _ | ⟨x, xs⟩⟩⟩ <;>
    rw [hsp] at h <;> simp at h
  obtain ⟨h1, h2⟩ := h
  rw [← h1, ← h2]
  exact splitParts_eq_pair hsp

theorem hasDot_iff_count {k : String} : hasDot k = true ↔ 1 ≤ k.toList.count '.' := by
  unfold hasDot
  rw [List.elem_iff]
  exact ⟨fun h => List.count_pos_iff.mpr h, fun h => List.count_pos_iff.mp h⟩

theorem splitTwo_eq_none_of_multiDot {k : String} (h : multiDot k) :
    splitTwo k = none := by
  unfold multiDot at h
  have hl := splitParts_length k.toList
  unfold splitTwo
  rcases hsp : splitParts k.toList with _ | ⟨p', _ | ⟨c', _ | ⟨x, xs⟩⟩⟩ <;>
      rw [hsp] at hl <;>
      simp only [List.length_cons, List.length_nil] at hl <;>
    first
    | rfl
    | omega

theorem splitTwo_eq_none_of_no_dot {k : String} (h : hasDot k = false) :
    splitTwo k = none := by
  have hc : k.toList.count '.' = 0 := by
    by_contra hne
    rw [Bool.eq_false_iff] at h
    exact h (hasDot_iff_count.mpr (by omega))
  have hl := splitParts_length k.toList
  rw [hc] at hl
  unfold splitTwo
  rcases hsp : splitParts k.toList with _ | ⟨p', _ | ⟨c', _ | ⟨x, xs⟩⟩⟩ <;>
      rw [hsp] at hl <;>
      simp only [List.length_cons, List.length_nil] at hl <;>
    first
    | rfl
    | omega

theorem splitTwo_isSome_of_count_one {k : String} (h : k.toList.count '.' = 1) :
    ∃ p c, splitTwo k = some (p, c) := by
  have hl := splitParts_length k.toList
  rw [h] at hl
  unfold splitTwo
  rcases hsp : splitParts k.toList with _ | ⟨p', _ | ⟨c', _ | ⟨x, xs⟩⟩⟩ <;>
      rw [hsp] at hl <;>
      simp only [List.length_cons, List.length_nil] at hl <;>
    first
    | exact ⟨String.mk p', String.mk c', rfl⟩
    | omega

theorem hasDot_of_splitTwo_some {k p c : String} (h : splitTwo k = some (p, c)) :
    hasDot k = true := by
  have := splitTwo_some_toList h
  unfold hasDot
  rw [List.elem_iff, this]
  simp

theorem parent_no_dot {k p c : String} (h : splitTwo k = some (p, c)) :
    hasDot p = false := by
  unfold splitTwo at h
  rcases hsp : splitParts k.toList with _ | ⟨p', _ | ⟨c', _ | ⟨x, xs⟩⟩⟩ <;>
    rw [hsp] at h <;> simp at h
  obtain ⟨h1, h2⟩ := h
  have hmem : p' ∈ splitParts k.toList := by rw [hsp]; simp
  have hnd := splitParts_parts_no_dot hmem
  rw [← h1]
  unfold hasDot
  rw [Bool.eq_false_iff, Ne, List.elem_iff]
  exact hnd

theorem splitTwo_inj {k1 k2 p c : String} (h1 : splitTwo k1 = some (p, c))
    (h2 : splitTwo k2 = some (p, c)) : k1 = k2 := by
  have e1 := splitTwo_some_toList h1
  have e2 := splitTwo_some_toList h2
  exact String.ext (e1.trans e2.symm)

/-! Helper lemmas about the cursor and the loop. -/

theorem execute_some (client : AsyncClient) (q : Query) (results : List Row) :
    HTTPDictCursor.execute (some client) q results =
      if "total_rows_to_read" ∈ (client q).column_names then .ok results
      else .ok (results ++ (client q).named_results) := rfl

theorem execute_fresh (client : AsyncClient) (q : Query) :
    HTTPDictCursor.execute (some client) q [] = .ok (buffered client q) := by
  rw [execute_some]
  unfold buffered
  by_cases hm : "total_rows_to_read" ∈ (client q).column_names
  · rw [if_pos hm, if_pos hm]
  · rw [if_neg hm, if_neg hm]
    simp

theorem from_row_loop_clean (rest : List (String × Val)) (row : Row) (dct : Dct)
    (h : ∀ kv ∈ rest, hasSigil kv.1 = false ∧ hasDot kv.1 = false) :
    from_row_loop rest row dct = .ok (row, dct) := by
  induction rest generalizing row dct with
  | nil => rfl
  | cons kv rest ih =>
    obtain ⟨k, v⟩ := kv
    obtain ⟨hs, hd⟩ := h (k, v) (List.mem_cons_self _ _)
    simp only [from_row_loop, hs, hd, Bool.false_eq_true, if_false]
    exact ih row dct (fun kv hm => h kv (List.mem_cons.mpr (Or.inr hm)))

/-! Claim theorems. -/

/-- C6: on a cursor holding N buffered rows, N successive `fetchone` calls
return exactly those rows in insertion order (each removing the oldest
buffered row), and the (N+1)-th call returns the absent signal, leaving an
empty buffer. -/
theorem c6_fetchone_fifo (buf : List Row) :
    HTTPDictCursor.fetchoneN buf (buf.length + 1) = (buf.map some ++ [none], []) := by
  induction buf with
  | nil => rfl
  | cons r rs ih =>
    have hstep : HTTPDictCursor.fetchoneN (r :: rs) ((r :: rs).length + 1) =
        (some r :: (HTTPDictCursor.fetchoneN rs (rs.length + 1)).1,
         (HTTPDictCursor.fetchoneN rs (rs.length + 1)).2) := rfl
    rw [hstep, ih]
    simp

/-- C7: `fetchall` returns the entire buffered sequence and clears the
buffer, so an immediately following `fetchall` returns the empty sequence
(and an empty buffer yields an empty sequence, not an error). -/
theorem c7_fetchall_one_shot (buf : List Row) :
    HTTPDictCursor.fetchall buf = (buf, []) ∧
    HTTPDictCursor.fetchall (HTTPDictCursor.fetchall buf).2 = ([], []) :=
  ⟨rfl, rfl⟩

/-- C8: when the executed query's result carries the synthetic
`total_rows_to_read` marker column, `execute` buffers none of its rows
(the buffer is unchanged), and on a fresh cursor a subsequent `fetchall`
returns the empty list. -/
theorem c8_progress_marker_rows_never_buffered (client : AsyncClient) (q : Query)
    (results : List Row)
    (h : "total_rows_to_read" ∈ (client q).column_names) :
    HTTPDictCursor.execute (some client) q results = .ok results ∧
    HTTPDictCursor.execute (some client) q [] = .ok [] ∧
    HTTPDictCursor.fetchall [] = ([], []) := by
  rw [execute_some, execute_some, if_pos h, if_pos h]
  exact ⟨rfl, rfl, rfl⟩

/-- Witness for C8 at a concrete client whose result carries the marker
column together with a pseudo-row: the pseudo-row is not buffered. -/
theorem c8_progress_marker_rows_never_buffered_witness :
    "total_rows_to_read" ∈ (markerClient "SELECT 1").column_names ∧
    (HTTPDictCursor.execute (some markerClient) "SELECT 1" [] = .ok [] ∧
     HTTPDictCursor.fetchall [] = ([], [])) :=
  ⟨by decide, (c8_progress_marker_rows_never_buffered markerClient "SELECT 1" []
    (by decide)).2⟩

/-- C1 counterexample: entering and exiting the `with_clickhouse` scope
from the pristine initial state leaves `http_client` published (it is not
reset to absent), refuting the claim that both process-wide references are
reset on exit. -/
theorem c1_counterexample_client_not_reset :
    (with_clickhouse_exit (with_clickhouse_enter () trivialClient
        ⟨none, none⟩)).1.http_pool = none ∧
    (with_clickhouse_exit (with_clickhouse_enter () trivialClient
        ⟨none, none⟩)).1.http_client = some trivialClient ∧
    (with_clickhouse_exit (with_clickhouse_enter () trivialClient
        ⟨none, none⟩)).1.http_client ≠ none :=
  ⟨rfl, rfl, fun hc => Option.noConfusion hc⟩

/-- C1 amended: on every exit of the `with_clickhouse` scope the pool
reference is reset to absent and `clear()` is called on the pool exactly
when one was published, but the client reference is left untouched. -/
theorem c1_amended_exit_resets_pool_only (s : GlobalState) :
    (with_clickhouse_exit s).1.http_pool = none ∧
    (with_clickhouse_exit s).2 = s.http_pool.isSome ∧
    (with_clickhouse_exit s).1.http_client = s.http_client :=
  ⟨rfl, rfl, rfl⟩

/-- C2 counterexample: after a scope has been entered and exited, the
client reference persists, so a cursor `execute` succeeds against the
stale client instead of failing with the out-of-scope error. -/
theorem c2_counterexample_no_scope_error_after_exit :
    HTTPDictCursor.execute
      ((with_clickhouse_exit (with_clickhouse_enter () oneRowClient
        ⟨none, none⟩)).1.http_client) "SELECT 1" [] = .ok [[("x", Val.atom 1)]] ∧
    HTTPDictCursor.execute
      ((with_clickhouse_exit (with_clickhouse_enter () oneRowClient
        ⟨none, none⟩)).1.http_client) "SELECT 1" [] ≠ .error .scopeError := by
  refine ⟨rfl, fun h => ?_⟩
  rw [(rfl : HTTPDictCursor.execute
      ((with_clickhouse_exit (with_clickhouse_enter () oneRowClient
        ⟨none, none⟩)).1.http_client) "SELECT 1" [] = .ok [[("x", Val.atom 1)]])] at h
  exact Except.noConfusion h

/-- C2 amended: `execute` fails with the scope error exactly when the
published client reference is absent; that is the case before any scope
has been entered, but not after a scope has exited, since exit does not
reset the client reference. -/
theorem c2_amended_scope_error_iff_client_absent (client : AsyncClient) (q : Query)
    (buf : List Row) (s0 : GlobalState) :
    HTTPDictCursor.execute none q buf = .error .scopeError ∧
    HTTPDictCursor.execute
      ((with_clickhouse_exit (with_clickhouse_enter () client s0)).1.http_client)
      q buf ≠ .error .scopeError := by
  refine ⟨rfl, ?_⟩
  show HTTPDictCursor.execute (some client) q buf ≠ .error .scopeError
  rw [execute_some]
  by_cases hm : "total_rows_to_read" ∈ (client q).column_names
  · rw [if_pos hm]
    exact fun h => Except.noConfusion h
  · rw [if_neg hm]
    exact fun h => Except.noConfusion h

/-- C4 counterexample: `from_row` does not leave the caller's row
unchanged: on the row with the single dotted key `a.b` the caller's
mapping ends up holding a nested object under `a` with the flat `a.b`
entry gone. -/
theorem c4_counterexample_from_row_mutates_row :
    from_row_result [("a.b", Val.atom 0)] = .ok [("a", Val.obj [("b", Val.atom 0)])] ∧
    from_row_result [("a.b", Val.atom 0)] ≠ .ok [("a.b", Val.atom 0)] := by
  refine ⟨rfl, fun h => ?_⟩
  rw [(rfl : from_row_result [("a.b", Val.atom 0)] =
    .ok [("a", Val.obj [("b", Val.atom 0)])])] at h
  injection h with h1
  injection h1 with h2 h3
  injection h2 with h4 h5
  exact absurd h4 (by decide)

/-- C4 amended: `from_row` mutates its argument in place (sigil keys are
renamed, dotted keys are removed and their nested objects merged in); a
row containing no sigil-prefixed and no dotted key is left unchanged. -/
theorem c4_amended_clean_rows_unchanged (row : Row)
    (h : ∀ kv ∈ row, hasSigil kv.1 = false ∧ hasDot kv.1 = false) :
    from_row_result row = .ok row := by
  unfold from_row_result
  rw [from_row_loop_clean row row [] h]
  rfl

/-- Witness for the amended C4 at a concrete sigil-free, dot-free row. -/
theorem c4_amended_clean_rows_unchanged_witness :
    (∀ kv ∈ ([("name", Val.atom 1), ("engine", Val.atom 2)] : Row),
      hasSigil kv.1 = false ∧ hasDot kv.1 = false) ∧
    from_row_result [("name", Val.atom 1), ("engine", Val.atom 2)] =
      .ok [("name", Val.atom 1), ("engine", Val.atom 2)] :=
  ⟨by decide, c4_amended_clean_rows_unchanged _ (by decide)⟩

/-- C10: `db_fetchone` returns the absent signal exactly when the query
buffered zero rows; when rows were buffered it returns only the first one
mapped through `from_row` (so the remaining buffered rows never influence
the outcome and are discarded with the cursor). -/
theorem c10_db_fetchone_first_row_only (client : AsyncClient) (q : Query) :
    (buffered client q = [] → db_fetchone (some client) q = .ok none) ∧
    (∀ r rest, buffered client q = r :: rest →
      db_fetchone (some client) q =
        match from_row_result r with
        | .ok rec => .ok (some rec)
        | .error e => .error e) ∧
    (db_fetchone (some client) q = .ok none → buffered client q = []) := by
  refine ⟨?_, ?_, ?_⟩
  · intro hb
    unfold db_fetchone
    rw [execute_fresh, hb]
    rfl
  · intro r rest hb
    unfold db_fetchone
    rw [execute_fresh, hb]
    rfl
  · intro hres
    cases hb : buffered client q with
    | nil => rfl
    | cons r rest =>
      have h2 : db_fetchone (some client) q =
          match from_row_result r with
          | .ok rec => Except.ok (some rec)
          | .error e => Except.error e := by
        unfold db_fetchone
        rw [execute_fresh, hb]
        rfl
      rw [h2] at hres
      cases hf : from_row_result r with
      | ok rec =>
        rw [hf] at hres
        exact Option.noConfusion (Except.ok.inj hres)
      | error e =>
        rw [hf] at hres
        exact Except.noConfusion hres

/-- Witness for C10 at a concrete two-row query: only the first buffered
row is returned; the second is discarded. -/
theorem c10_db_fetchone_first_row_only_witness :
    buffered twoRowClient "SELECT 1" = [[("x", Val.atom 1)], [("x", Val.atom 2)]] ∧
    db_fetchone (some twoRowClient) "SELECT 1" = .ok (some [("x", Val.atom 1)]) := by
  refine ⟨rfl, ?_⟩
  have h := (c10_db_fetchone_first_row_only twoRowClient "SELECT 1").2.1
    [("x", Val.atom 1)] [[("x", Val.atom 2)]] rfl
  rw [h]
  rfl

/-- Any iteration of the `from_row` loop whose remaining entries include a
key with two or more separators raises some Python error before the loop
can return. -/
theorem from_row_loop_error_of_multiDot (rest : List (String × Val)) (row : Row)
    (dct : Dct) (h : ∃ kv ∈ rest, multiDot kv.1) :
    ∃ e, from_row_loop rest row dct = .error e := by
  induction rest generalizing row dct with
  | nil => simp at h
  | cons kv rest ih =>
    obtain ⟨k, v⟩ := kv
    by_cases hmd : multiDot k
    · have hdot : hasDot k = true := by
        rw [hasDot_iff_count]
        unfold multiDot at hmd
        omega
      have hsp : splitTwo k = none := splitTwo_eq_none_of_multiDot hmd
      by_cases hs : hasSigil k = true
      · cases hp : dpop row k with
        | none => exact ⟨.keyError, by simp [from_row_loop, hs, hp]⟩
        | some pr =>
          exact ⟨.valueError, by simp [from_row_loop, hs, hp, hdot, hsp]⟩
      · exact ⟨.valueError, by simp [from_row_loop, hs, hdot, hsp]⟩
    · obtain ⟨kv', hmem, hmd'⟩ := h
      rcases List.mem_cons.mp hmem with heq | hmem'
      · rw [heq] at hmd'
        exact absurd hmd' hmd
      · by_cases hs : hasSigil k = true
        · cases hp : dpop row k with
          | none => exact ⟨.keyError, by simp [from_row_loop, hs, hp]⟩
          | some pr =>
            obtain ⟨pv, row'⟩ := pr
            by_cases hd : hasDot k = true
            · cases hsp2 : splitTwo k with
              | none =>
                exact ⟨.valueError, by simp [from_row_loop, hs, hp, hd, hsp2]⟩
              | some pc =>
                cases hp2 : dpop (dset row' (stripSigil k) pv) k with
                | none =>
                  exact ⟨.keyError, by simp [from_row_loop, hs, hp, hd, hsp2, hp2]⟩
                | some pr2 =>
                  obtain ⟨e, he⟩ := ih pr2.2 (dctAdd dct pc.1 pc.2 v)
                    ⟨kv', hmem', hmd'⟩
                  refine ⟨e, ?_⟩
                  simp [from_row_loop, hs, hp, hd, hsp2, hp2]
                  exact he
            · obtain ⟨e, he⟩ := ih (dset row' (stripSigil k) pv) dct
                ⟨kv', hmem', hmd'⟩
              refine ⟨e, ?_⟩
              simp [from_row_loop, hs, hp, hd]
              exact he
        · by_cases hd : hasDot k = true
          · cases hsp2 : splitTwo k with
            | none =>
              exact ⟨.valueError, by simp [from_row_loop, hs, hd, hsp2]⟩
            | some pc =>
              cases hp2 : dpop row k with
              | none =>
                exact ⟨.keyError, by simp [from_row_loop, hs, hd, hsp2, hp2]⟩
              | some pr2 =>
                obtain ⟨e, he⟩ := ih pr2.2 (dctAdd dct pc.1 pc.2 v)
                  ⟨kv', hmem', hmd'⟩
                refine ⟨e, ?_⟩
                simp [from_row_loop, hs, hd, hsp2, hp2]
                exact he
          · obtain ⟨e, he⟩ := ih row dct ⟨kv', hmem', hmd'⟩
            refine ⟨e, ?_⟩
            simp [from_row_loop, hs, hd]
            exact he

/-- C9: on every input row containing a key with two or more separator
characters, `from_row` raises an error (the two-name unpacking of the
split, or an earlier key error) instead of producing a record. -/
theorem c9_multidot_key_raises (row : Row) (h : ∃ kv ∈ row, multiDot kv.1) :
    ∃ e, from_row_result row = .error e := by
  obtain ⟨e, he⟩ := from_row_loop_error_of_multiDot row row [] h
  refine ⟨e, ?_⟩
  unfold from_row_result
  rw [he]

/-- Witness for C9 at the concrete row with the single key `a.b.c`. -/
theorem c9_multidot_key_raises_witness :
    (∃ kv ∈ ([("a.b.c", Val.atom 0)] : Row), multiDot kv.1) ∧
    ∃ e, from_row_result [("a.b.c", Val.atom 0)] = .error e :=
  ⟨⟨("a.b.c", Val.atom 0), List.mem_cons_self _ _, by unfold multiDot; decide⟩,
   c9_multidot_key_raises _
     ⟨("a.b.c", Val.atom 0), List.mem_cons_self _ _, by unfold multiDot; decide⟩⟩

/-! Lemmas about the nested `dct` accumulator, towards the dotted-key
characterization of `from_row`. -/

theorem dctAdd_lookup (d : Dct) (p c : String) (v : Val) (x : String) :
    dctLookup (dctAdd d p c v) x =
      if x = p then some (dset ((dctLookup d p).getD []) c v)
      else dctLookup d x := by
  induction d with
  | nil =>
    simp only [dctAdd, dctLookup]
    by_cases h : x = p
    · rw [if_pos h.symm, if_pos h]
      rfl
    · rw [if_neg (fun hh : p = x => h hh.symm), if_neg h]
  | cons pm d ih =>
    obtain ⟨p₀, m₀⟩ := pm
    by_cases h₀ : p₀ = p
    · subst h₀
      simp only [dctAdd, if_pos rfl, dctLookup]
      by_cases h : x = p₀
      · rw [if_pos h.symm, if_pos h]
        rfl
      · rw [if_neg (fun hh : p₀ = x => h hh.symm), if_neg h,
          if_neg (fun hh : p₀ = x => h hh.symm)]
    · simp only [dctAdd, if_neg h₀, dctLookup]
      by_cases h : p₀ = x
      · subst h
        rw [if_pos rfl, if_neg (fun hh : p₀ = p => h₀ hh), if_pos rfl]
      · rw [if_neg h, if_neg h, ih]

theorem dctLookup_eq_none_iff (d : Dct) (x : String) :
    dctLookup d x = none ↔ x ∉ d.map Prod.fst := by
  induction d with
  | nil => simp [dctLookup]
  | cons pm d ih =>
    obtain ⟨p₀, m₀⟩ := pm
    simp only [dctLookup, List.map_cons, List.mem_cons]
    by_cases h : p₀ = x
    · subst h; simp
    · rw [if_neg h, ih]
      constructor
      · rintro hn (rfl | hm)
        · exact h rfl
        · exact hn hm
      · intro hn hm
        exact hn (Or.inr hm)

theorem dctParents_dctAdd (d : Dct) (p c : String) (v : Val) :
    (dctAdd d p c v).map Prod.fst =
      if p ∈ d.map Prod.fst then d.map Prod.fst else d.map Prod.fst ++ [p] := by
  induction d with
  | nil => simp [dctAdd]
  | cons pm d ih =>
    obtain ⟨p₀, m₀⟩ := pm
    by_cases h₀ : p₀ = p
    · subst h₀
      rw [if_pos (by simp)]
      simp [dctAdd]
    · simp only [dctAdd, if_neg h₀, List.map_cons] at ih ⊢
      by_cases hm : p ∈ List.map Prod.fst d
      · rw [if_pos hm] at ih
        rw [ih, if_pos (List.mem_cons.mpr (Or.inr hm))]
      · rw [if_neg hm] at ih
        rw [ih, if_neg (fun hc => by
          rcases List.mem_cons.mp hc with h1 | h2
          · exact h₀ h1.symm
          · exact hm h2)]
        simp

theorem dctAdd_parents_nodup {d : Dct} (p c : String) (v : Val)
    (h : (d.map Prod.fst).Nodup) : ((dctAdd d p c v).map Prod.fst).Nodup := by
  rw [dctParents_dctAdd]
  by_cases hm : p ∈ d.map Prod.fst
  · simpa [hm] using h
  · rw [if_neg hm]
    exact List.Nodup.append h (List.nodup_singleton p)
      (List.disjoint_singleton.mpr hm)

theorem dctOf_parents_nodup (entries : List (String × Val)) (d : Dct)
    (h : (d.map Prod.fst).Nodup) : ((dctOf entries d).map Prod.fst).Nodup := by
  induction entries generalizing d with
  | nil => exact h
  | cons kv rest ih =>
    obtain ⟨k, v⟩ := kv
    simp only [dctOf]
    cases hsp : splitTwo k with
    | none => exact ih d h
    | some pc => exact ih _ (dctAdd_parents_nodup pc.1 pc.2 v h)

theorem dupdate_dlookup (d : Dct) (r : Row) (x : String)
    (hnd : (d.map Prod.fst).Nodup) :
    dlookup (dupdate r d) x =
      match dctLookup d x with
      | some m => some (Val.obj m)
      | none => dlookup r x := by
  induction d generalizing r with
  | nil => rfl
  | cons pm d ih =>
    obtain ⟨p₀, m₀⟩ := pm
    simp only [List.map_cons, List.nodup_cons] at hnd
    have hstep : dupdate r ((p₀, m₀) :: d) = dupdate (dset r p₀ (Val.obj m₀)) d := rfl
    rw [hstep, ih _ hnd.2]
    simp only [dctLookup]
    by_cases h : p₀ = x
    · subst h
      rw [if_pos rfl]
      have hdl : dctLookup d p₀ = none :=
        (dctLookup_eq_none_iff d p₀).mpr hnd.1
      rw [hdl]
      rw [dlookup_dset, if_pos rfl]
    · rw [if_neg h]
      cases hdl : dctLookup d x with
      | some m => rfl
      | none =>
        rw [dlookup_dset, if_neg (fun hh : x = p₀ => h hh.symm)]

theorem dctOf_lookup_none (entries : List (String × Val)) (d : Dct) (x : String)
    (hno : ∀ kv ∈ entries, ∀ pc, splitTwo kv.1 = some pc → pc.1 ≠ x)
    (hd : dctLookup d x = none) :
    dctLookup (dctOf entries d) x = none := by
  induction entries generalizing d with
  | nil => exact hd
  | cons kv rest ih =>
    obtain ⟨k, v⟩ := kv
    simp only [dctOf]
    cases hsp : splitTwo k with
    | none => exact ih d (fun kv hm => hno kv (List.mem_cons.mpr (Or.inr hm))) hd
    | some pc =>
      refine ih _ (fun kv hm => hno kv (List.mem_cons.mpr (Or.inr hm))) ?_
      rw [dctAdd_lookup,
        if_neg (fun hh : x = pc.1 =>
          hno (k, v) (List.mem_cons_self _ _) pc hsp hh.symm)]
      exact hd

theorem dctOf_mono (entries : List (String × Val)) (d : Dct) (p c : String)
    (v : Val) (m : Row) (hd : dctLookup d p = some m) (hc : dlookup m c = some v)
    (hno : ∀ kv ∈ entries, splitTwo kv.1 ≠ some (p, c)) :
    ∃ m', dctLookup (dctOf entries d) p = some m' ∧ dlookup m' c = some v := by
  induction entries generalizing d m with
  | nil => exact ⟨m, hd, hc⟩
  | cons kv rest ih =>
    obtain ⟨k, v'⟩ := kv
    simp only [dctOf]
    cases hsp : splitTwo k with
    | none => exact ih d m hd hc (fun kv hm => hno kv (List.mem_cons.mpr (Or.inr hm)))
    | some pc =>
      obtain ⟨p', c'⟩ := pc
      by_cases hpp : p' = p
      · subst hpp
        have hcc : c' ≠ c := by
          intro hcc
          subst hcc
          exact hno (k, v') (List.mem_cons_self _ _) hsp
        refine ih _ (dset m c' v') ?_ ?_
          (fun kv hm => hno kv (List.mem_cons.mpr (Or.inr hm)))
        · rw [dctAdd_lookup, if_pos rfl, hd]
          rfl
        · rw [dlookup_dset, if_neg (fun hh : c = c' => hcc hh.symm)]
          exact hc
      · refine ih _ m ?_ hc (fun kv hm => hno kv (List.mem_cons.mpr (Or.inr hm)))
        rw [dctAdd_lookup, if_neg (fun hh : p = p' => hpp hh.symm)]
        exact hd

theorem dctOf_child (entries : List (String × Val)) (d : Dct) (k : String)
    (v : Val) (p c : String) (hmem : (k, v) ∈ entries)
    (hsplit : splitTwo k = some (p, c))
    (hnodup : (entries.map Prod.fst).Nodup) :
    ∃ m, dctLookup (dctOf entries d) p = some m ∧ dlookup m c = some v := by
  induction entries generalizing d with
  | nil => simp at hmem
  | cons kv rest ih =>
    obtain ⟨k₀, v₀⟩ := kv
    simp only [List.map_cons, List.nodup_cons] at hnodup
    rcases List.mem_cons.mp hmem with heq | hmem'
    · injection heq with h1 h2
      subst h1
      subst h2
      simp only [dctOf, hsplit]
      refine dctOf_mono rest (dctAdd d p c v) p c v
        (dset ((dctLookup d p).getD []) c v) ?_ ?_ ?_
      · rw [dctAdd_lookup, if_pos rfl]
      · rw [dlookup_dset, if_pos rfl]
      · intro kv hm hsp2
        have := splitTwo_inj hsp2 hsplit
        exact hnodup.1 (this ▸ List.mem_map_of_mem Prod.fst hm)
    · simp only [dctOf]
      cases hsp2 : splitTwo k₀ with
      | none => exact ih d hmem' hnodup.2
      | some pc => exact ih _ hmem' hnodup.2

/-! Lemmas about `eraseDotted`, and the characterization of the `from_row`
loop on rows whose keys are sigil-free with at most one separator. -/

theorem dlookup_derase_none {r : Row} {x : String} (k : String)
    (h : dlookup r x = none) : dlookup (derase r k) x = none := by
  induction r with
  | nil => rfl
  | cons kv r ih =>
    obtain ⟨k₀, v₀⟩ := kv
    simp only [dlookup] at h
    by_cases hx : k₀ = x
    · rw [if_pos hx] at h
      exact Option.noConfusion h
    · rw [if_neg hx] at h
      by_cases hk : k₀ = k
      · simp only [derase, if_pos hk]
        exact h
      · simp only [derase, if_neg hk, dlookup, if_neg hx]
        exact ih h

theorem eraseDotted_none_mono (entries : List (String × Val)) {row : Row}
    {x : String} (h : dlookup row x = none) :
    dlookup (eraseDotted row entries) x = none := by
  induction entries generalizing row with
  | nil => exact h
  | cons kv rest ih =>
    obtain ⟨k, v⟩ := kv
    have hstep : eraseDotted row ((k, v) :: rest) =
        eraseDotted (if hasDot k then derase row k else row) rest := rfl
    rw [hstep]
    by_cases hd : hasDot k = true
    · rw [if_pos hd]
      exact ih (dlookup_derase_none k h)
    · rw [if_neg hd]
      exact ih h

theorem eraseDotted_lookup_other (entries : List (String × Val)) {row : Row}
    {x : String} (hx : ∀ kv ∈ entries, hasDot kv.1 = true → kv.1 ≠ x) :
    dlookup (eraseDotted row entries) x = dlookup row x := by
  induction entries generalizing row with
  | nil => rfl
  | cons kv rest ih =>
    obtain ⟨k, v⟩ := kv
    have hstep : eraseDotted row ((k, v) :: rest) =
        eraseDotted (if hasDot k then derase row k else row) rest := rfl
    rw [hstep]
    by_cases hd : hasDot k = true
    · rw [if_pos hd, ih (fun kv hm => hx kv (List.mem_cons.mpr (Or.inr hm)))]
      exact dlookup_derase_other row
        (fun hh : x = k => hx (k, v) (List.mem_cons_self _ _) hd hh.symm)
    · rw [if_neg hd]
      exact ih (fun kv hm => hx kv (List.mem_cons.mpr (Or.inr hm)))

theorem eraseDotted_lookup_none (entries : List (String × Val)) {row : Row}
    {k : String} {v : Val} (hnodup : (dkeys row).Nodup)
    (hmem : (k, v) ∈ entries) (hd : hasDot k = true) :
    dlookup (eraseDotted row entries) k = none := by
  induction entries generalizing row with
  | nil => simp at hmem
  | cons kv₀ rest ih =>
    obtain ⟨k₀, v₀⟩ := kv₀
    have hstep : eraseDotted row ((k₀, v₀) :: rest) =
        eraseDotted (if hasDot k₀ then derase row k₀ else row) rest := rfl
    rw [hstep]
    rcases List.mem_cons.mp hmem with heq | hmem'
    · injection heq with h1 h2
      subst h1
      rw [if_pos hd]
      exact eraseDotted_none_mono rest (dlookup_derase_self _ hnodup)
    · by_cases hd₀ : hasDot k₀ = true
      · rw [if_pos hd₀]
        exact ih (nodup_derase _ hnodup) hmem'
      · rw [if_neg hd₀]
        exact ih hnodup hmem'

theorem from_row_loop_nice (rest : List (String × Val)) (row : Row) (dct : Dct)
    (hnice : ∀ kv ∈ rest, niceKey kv.1)
    (hnodup : (rest.map Prod.fst).Nodup)
    (hpres : ∀ kv ∈ rest, hasDot kv.1 = true → (dlookup row kv.1).isSome) :
    from_row_loop rest row dct = .ok (eraseDotted row rest, dctOf rest dct) := by
  induction rest generalizing row dct with
  | nil => rfl
  | cons kv rest ih =>
    obtain ⟨k, v⟩ := kv
    obtain ⟨hs₀, hcnt₀⟩ := hnice (k, v) (List.mem_cons_self _ _)
    have hs : hasSigil k = false := hs₀
    have hcnt : k.toList.count '.' ≤ 1 := hcnt₀
    have hsneg : ¬ (hasSigil k = true) := by
      rw [hs]
      exact Bool.false_ne_true
    simp only [List.map_cons, List.nodup_cons] at hnodup
    by_cases hd : hasDot k = true
    · have hc1 : k.toList.count '.' = 1 := by
        have := hasDot_iff_count.mp hd
        omega
      obtain ⟨p, c, hsp⟩ := splitTwo_isSome_of_count_one hc1
      have hps : (dlookup row k).isSome :=
        hpres (k, v) (List.mem_cons_self _ _) hd
      obtain ⟨w, hw⟩ := Option.isSome_iff_exists.mp hps
      have hdp : dpop row k = some (w, derase row k) := by
        rw [dpop_eq, hw]
        rfl
      have hloop : from_row_loop ((k, v) :: rest) row dct =
          from_row_loop rest (derase row k) (dctAdd dct p c v) := by
        simp only [from_row_loop, if_neg hsneg, if_pos hd, hsp, hdp]
      rw [hloop, ih (derase row k) (dctAdd dct p c v)
        (fun kv hm => hnice kv (List.mem_cons.mpr (Or.inr hm)))
        hnodup.2
        (fun kv hm hdot => by
          rw [dlookup_derase_other row
            (fun hh : kv.1 = k => hnodup.1 (hh ▸ List.mem_map_of_mem Prod.fst hm))]
          exact hpres kv (List.mem_cons.mpr (Or.inr hm)) hdot)]
      have e1 : eraseDotted row ((k, v) :: rest) = eraseDotted (derase row k) rest := by
        have hstep : eraseDotted row ((k, v) :: rest) =
            eraseDotted (if hasDot k then derase row k else row) rest := rfl
        rw [hstep, if_pos hd]
      have e2 : dctOf ((k, v) :: rest) dct = dctOf rest (dctAdd dct p c v) := by
        simp only [dctOf, hsp]
      rw [e1, e2]
    · have hb : hasDot k = false := Bool.eq_false_iff.mpr hd
      have hloop : from_row_loop ((k, v) :: rest) row dct =
          from_row_loop rest row dct := by
        simp only [from_row_loop, if_neg hsneg, if_neg hd]
      rw [hloop, ih row dct
        (fun kv hm => hnice kv (List.mem_cons.mpr (Or.inr hm)))
        hnodup.2
        (fun kv hm hdot => hpres kv (List.mem_cons.mpr (Or.inr hm)) hdot)]
      have e1 : eraseDotted row ((k, v) :: rest) = eraseDotted row rest := by
        have hstep : eraseDotted row ((k, v) :: rest) =
            eraseDotted (if hasDot k then derase row k else row) rest := rfl
        rw [hstep, if_neg hd]
      have e2 : dctOf ((k, v) :: rest) dct = dctOf rest dct := by
        simp only [dctOf, splitTwo_eq_none_of_no_dot hb]
      rw [e1, e2]

/-- On a row with distinct keys, all sigil-free with at most one separator,
`from_row` succeeds and its result is the row with its dotted keys erased,
updated with the accumulated nested mapping. -/
theorem from_row_result_nice (row : Row)
    (hnice : ∀ kv ∈ row, niceKey kv.1)
    (hnodup : (dkeys row).Nodup) :
    from_row_result row = .ok (dupdate (eraseDotted row row) (dctOf row [])) := by
  unfold from_row_result
  rw [from_row_loop_nice row row [] hnice hnodup
    (fun kv hm _ => dlookup_isSome_of_mem hm)]

/-- C5: on a row with distinct keys, all sigil-free with at most one
separator, every dotted key `p.c` is routed into the nested mapping under
its parent `p` with sub-key `c`: the flat dotted key is removed from the
mapping result, and the result maps `p` to the nested object holding the
child value.  Because the parent lookup yields the nested object
unconditionally, any flat value stored at `p` in the input row is
overwritten (nested wins). -/
theorem c5_dotted_keys_routed (row : Row)
    (hnice : ∀ kv ∈ row, niceKey kv.1)
    (hnodup : (dkeys row).Nodup)
    (k : String) (v : Val) (p c : String)
    (hmem : (k, v) ∈ row) (hsplit : splitTwo k = some (p, c)) :
    ∃ res, from_row_result row = .ok res ∧
      dlookup res k = none ∧
      ∃ m, dctLookup (dctOf row []) p = some m ∧
        dlookup res p = some (.obj m) ∧ dlookup m c = some v := by
  refine ⟨dupdate (eraseDotted row row) (dctOf row []),
    from_row_result_nice row hnice hnodup, ?_, ?_⟩
  · have hdk : hasDot k = true := hasDot_of_splitTwo_some hsplit
    have hparents : dctLookup (dctOf row []) k = none := by
      refine dctOf_lookup_none row [] k ?_ rfl
      intro kv hm pc hpc hpk
      have hnd : hasDot pc.1 = false := parent_no_dot hpc
      rw [hpk] at hnd
      rw [hnd] at hdk
      exact Bool.noConfusion hdk
    rw [dupdate_dlookup _ _ _ (dctOf_parents_nodup row [] (by simp)), hparents]
    exact eraseDotted_lookup_none row hnodup hmem hdk
  · obtain ⟨m, hm1, hm2⟩ := dctOf_child row [] k v p c hmem hsplit hnodup
    refine ⟨m, hm1, ?_, hm2⟩
    rw [dupdate_dlookup _ _ _ (dctOf_parents_nodup row [] (by simp)), hm1]

/-- Witness for C5 at the spec's example shape extended with a flat parent
value: keys `a`, `a.b`, `a.c`.  The dotted key is gone from the result and
`a` maps to the nested object whose field `b` holds the routed value, even
though the input row stored a flat value at `a`. -/
theorem c5_dotted_keys_routed_witness :
    (∀ kv ∈ ([("a", Val.atom 0), ("a.b", Val.atom 1), ("a.c", Val.atom 2)] : Row),
      niceKey kv.1) ∧
    ∃ res, from_row_result
        [("a", Val.atom 0), ("a.b", Val.atom 1), ("a.c", Val.atom 2)] = .ok res ∧
      dlookup res "a.b" = none ∧
      ∃ m, dctLookup
          (dctOf [("a", Val.atom 0), ("a.b", Val.atom 1), ("a.c", Val.atom 2)] [])
          "a" = some m ∧
        dlookup res "a" = some (.obj m) ∧ dlookup m "b" = some (Val.atom 1) :=
  ⟨by simp only [niceKey]; decide,
   c5_dotted_keys_routed _ (by simp only [niceKey]; decide) (by decide)
     "a.b" (Val.atom 1) "a" "b"
     (List.mem_cons.mpr (Or.inr (List.mem_cons_self _ _))) (by decide)⟩

/-! Sigil-key lemmas and the map-equality bisimulation of the `from_row`
loop, towards the sigil-stripping property. -/

theorem toList_at (k : String) : ("@" ++ k).toList = '@' :: k.toList := rfl

theorem hasSigil_at (k : String) : hasSigil ("@" ++ k) = true := by
  unfold hasSigil
  rw [toList_at]
  simp

theorem hasDot_at (k : String) : hasDot ("@" ++ k) = hasDot k := by
  unfold hasDot
  rw [toList_at]
  simp

theorem stripSigil_at (k : String) : stripSigil ("@" ++ k) = k := by
  unfold stripSigil
  rw [if_pos (hasSigil_at k), toList_at]
  rfl

theorem at_ne (k : String) : "@" ++ k ≠ k := by
  intro h
  have h2 := congrArg String.toList h
  rw [toList_at] at h2
  have h3 := congrArg List.length h2
  simp at h3

theorem stripSigil_spec {k : String} (h : hasSigil k = true) :
    k = "@" ++ stripSigil k := by
  unfold stripSigil
  rw [if_pos h]
  apply String.ext
  show k.data = '@' :: k.data.drop 1
  unfold hasSigil at h
  cases hk : k.toList with
  | nil =>
    rw [hk] at h
    exact Bool.noConfusion h
  | cons c rest =>
    rw [hk] at h
    have hc : c = '@' := by simpa using h
    subst hc
    have hd : k.data = '@' :: rest := hk
    rw [hd]
    rfl

theorem dset_mEq {r1 r2 : Row} (h : mEq r1 r2) (k : String) (v : Val) :
    mEq (dset r1 k v) (dset r2 k v) := by
  intro x
  rw [dlookup_dset, dlookup_dset]
  by_cases hx : x = k
  · rw [if_pos hx, if_pos hx]
  · rw [if_neg hx, if_neg hx]
    exact h x

theorem derase_mEq {r1 r2 : Row} (h : mEq r1 r2) (k : String)
    (hn1 : (dkeys r1).Nodup) (hn2 : (dkeys r2).Nodup) :
    mEq (derase r1 k) (derase r2 k) := by
  intro x
  by_cases hx : x = k
  · subst hx
    rw [dlookup_derase_self _ hn1, dlookup_derase_self _ hn2]
  · rw [dlookup_derase_other _ hx, dlookup_derase_other _ hx]
    exact h x

theorem dupdate_mEq (d : Dct) {r1 r2 : Row} (h : mEq r1 r2) :
    mEq (dupdate r1 d) (dupdate r2 d) := by
  induction d generalizing r1 r2 with
  | nil => exact h
  | cons pm d ih => exact ih (dset_mEq h pm.1 (Val.obj pm.2))

theorem from_row_loop_mEq (rest : List (String × Val)) (r1 r2 : Row) (dct : Dct)
    (h : mEq r1 r2) (hn1 : (dkeys r1).Nodup) (hn2 : (dkeys r2).Nodup) :
    resPairMEq (from_row_loop rest r1 dct) (from_row_loop rest r2 dct) := by
  induction rest generalizing r1 r2 dct with
  | nil => exact ⟨h, rfl⟩
  | cons kv rest ih =>
    obtain ⟨k, v⟩ := kv
    by_cases hs : hasSigil k = true
    · cases hl : dlookup r1 k with
      | none =>
        have hl2 : dlookup r2 k = none := (h k).symm.trans hl
        have hdp1 : dpop r1 k = none := by rw [dpop_eq, hl]; rfl
        have hdp2 : dpop r2 k = none := by rw [dpop_eq, hl2]; rfl
        have e1 : from_row_loop ((k, v) :: rest) r1 dct = .error .keyError := by
          simp only [from_row_loop, if_pos hs, hdp1]
        have e2 : from_row_loop ((k, v) :: rest) r2 dct = .error .keyError := by
          simp only [from_row_loop, if_pos hs, hdp2]
        rw [e1, e2]
        exact rfl
      | some w =>
        have hl2 : dlookup r2 k = some w := (h k).symm.trans hl
        have hdp1 : dpop r1 k = some (w, derase r1 k) := by rw [dpop_eq, hl]; rfl
        have hdp2 : dpop r2 k = some (w, derase r2 k) := by rw [dpop_eq, hl2]; rfl
        have hm' : mEq (dset (derase r1 k) (stripSigil k) w)
            (dset (derase r2 k) (stripSigil k) w) :=
          dset_mEq (derase_mEq h k hn1 hn2) _ _
        have hn1' : (dkeys (dset (derase r1 k) (stripSigil k) w)).Nodup :=
          nodup_dset _ _ (nodup_derase _ hn1)
        have hn2' : (dkeys (dset (derase r2 k) (stripSigil k) w)).Nodup :=
          nodup_dset _ _ (nodup_derase _ hn2)
        by_cases hd : hasDot k = true
        · cases hsp : splitTwo k with
          | none =>
            have e1 : from_row_loop ((k, v) :: rest) r1 dct = .error .valueError := by
              simp only [from_row_loop, if_pos hs, hdp1, if_pos hd, hsp]
            have e2 : from_row_loop ((k, v) :: rest) r2 dct = .error .valueError := by
              simp only [from_row_loop, if_pos hs, hdp2, if_pos hd, hsp]
            rw [e1, e2]
            exact rfl
          | some pc =>
            cases hl' : dlookup (dset (derase r1 k) (stripSigil k) w) k with
            | none =>
              have hl2' : dlookup (dset (derase r2 k) (stripSigil k) w) k = none :=
                (hm' k).symm.trans hl'
              have hdp1' : dpop (dset (derase r1 k) (stripSigil k) w) k = none := by
                rw [dpop_eq, hl']; rfl
              have hdp2' : dpop (dset (derase r2 k) (stripSigil k) w) k = none := by
                rw [dpop_eq, hl2']; rfl
              have e1 : from_row_loop ((k, v) :: rest) r1 dct = .error .keyError := by
                simp only [from_row_loop, if_pos hs, hdp1, if_pos hd, hsp, hdp1']
              have e2 : from_row_loop ((k, v) :: rest) r2 dct = .error .keyError := by
                simp only [from_row_loop, if_pos hs, hdp2, if_pos hd, hsp, hdp2']
              rw [e1, e2]
              exact rfl
            | some w2 =>
              have hl2' : dlookup (dset (derase r2 k) (stripSigil k) w) k = some w2 :=
                (hm' k).symm.trans hl'
              have hdp1' : dpop (dset (derase r1 k) (stripSigil k) w) k =
                  some (w2, derase (dset (derase r1 k) (stripSigil k) w) k) := by
                rw [dpop_eq, hl']; rfl
              have hdp2' : dpop (dset (derase r2 k) (stripSigil k) w) k =
                  some (w2, derase (dset (derase r2 k) (stripSigil k) w) k) := by
                rw [dpop_eq, hl2']; rfl
              have e1 : from_row_loop ((k, v) :: rest) r1 dct =
                  from_row_loop rest (derase (dset (derase r1 k) (stripSigil k) w) k)
                    (dctAdd dct pc.1 pc.2 v) := by
                simp only [from_row_loop, if_pos hs, hdp1, if_pos hd, hsp, hdp1']
              have e2 : from_row_loop ((k, v) :: rest) r2 dct =
                  from_row_loop rest (derase (dset (derase r2 k) (stripSigil k) w) k)
                    (dctAdd dct pc.1 pc.2 v) := by
                simp only [from_row_loop, if_pos hs, hdp2, if_pos hd, hsp, hdp2']
              rw [e1, e2]
              exact ih _ _ _ (derase_mEq hm' k hn1' hn2')
                (nodup_derase _ hn1') (nodup_derase _ hn2')
        · have e1 : from_row_loop ((k, v) :: rest) r1 dct =
              from_row_loop rest (dset (derase r1 k) (stripSigil k) w) dct := by
            simp only [from_row_loop, if_pos hs, hdp1, if_neg hd]
          have e2 : from_row_loop ((k, v) :: rest) r2 dct =
              from_row_loop rest (dset (derase r2 k) (stripSigil k) w) dct := by
            simp only [from_row_loop, if_pos hs, hdp2, if_neg hd]
          rw [e1, e2]
          exact ih _ _ _ hm' hn1' hn2'
    · by_cases hd : hasDot k = true
      · cases hsp : splitTwo k with
        | none =>
          have e1 : from_row_loop ((k, v) :: rest) r1 dct = .error .valueError := by
            simp only [from_row_loop, if_neg hs, if_pos hd, hsp]
          have e2 : from_row_loop ((k, v) :: rest) r2 dct = .error .valueError := by
            simp only [from_row_loop, if_neg hs, if_pos hd, hsp]
          rw [e1, e2]
          exact rfl
        | some pc =>
          cases hl : dlookup r1 k with
          | none =>
            have hl2 : dlookup r2 k = none := (h k).symm.trans hl
            have hdp1 : dpop r1 k = none := by rw [dpop_eq, hl]; rfl
            have hdp2 : dpop r2 k = none := by rw [dpop_eq, hl2]; rfl
            have e1 : from_row_loop ((k, v) :: rest) r1 dct = .error .keyError := by
              simp only [from_row_loop, if_neg hs, if_pos hd, hsp, hdp1]
            have e2 : from_row_loop ((k, v) :: rest) r2 dct = .error .keyError := by
              simp only [from_row_loop, if_neg hs, if_pos hd, hsp, hdp2]
            rw [e1, e2]
            exact rfl
          | some w =>
            have hl2 : dlookup r2 k = some w := (h k).symm.trans hl
            have hdp1 : dpop r1 k = some (w, derase r1 k) := by rw [dpop_eq, hl]; rfl
            have hdp2 : dpop r2 k = some (w, derase r2 k) := by rw [dpop_eq, hl2]; rfl
            have e1 : from_row_loop ((k, v) :: rest) r1 dct =
                from_row_loop rest (derase r1 k) (dctAdd dct pc.1 pc.2 v) := by
              simp only [from_row_loop, if_neg hs, if_pos hd, hsp, hdp1]
            have e2 : from_row_loop ((k, v) :: rest) r2 dct =
                from_row_loop rest (derase r2 k) (dctAdd dct pc.1 pc.2 v) := by
              simp only [from_row_loop, if_neg hs, if_pos hd, hsp, hdp2]
            rw [e1, e2]
            exact ih _ _ _ (derase_mEq h k hn1 hn2)
              (nodup_derase _ hn1) (nodup_derase _ hn2)
      · have e1 : from_row_loop ((k, v) :: rest) r1 dct =
            from_row_loop rest r1 dct := by
          simp only [from_row_loop, if_neg hs, if_neg hd]
        have e2 : from_row_loop ((k, v) :: rest) r2 dct =
            from_row_loop rest r2 dct := by
          simp only [from_row_loop, if_neg hs, if_neg hd]
        rw [e1, e2]
        exact ih _ _ _ h hn1 hn2

/-! The shifted-key correspondence used for the sigil-stripping claim. -/

theorem exceptAtEq_derase {ka kb : String} {r1 r2 : Row}
    (hex : exceptAtEq ka kb r1 r2) (k₀ : String)
    (hk₀a : k₀ ≠ ka) (hk₀b : k₀ ≠ kb)
    (hn1 : (dkeys r1).Nodup) (hn2 : (dkeys r2).Nodup) :
    exceptAtEq ka kb (derase r1 k₀) (derase r2 k₀) := by
  obtain ⟨⟨w, hw1, hw2⟩, hb1, ha2, helse⟩ := hex
  refine ⟨⟨w, ?_, ?_⟩, ?_, ?_, ?_⟩
  · rw [dlookup_derase_other _ (Ne.symm hk₀a)]
    exact hw1
  · rw [dlookup_derase_other _ (Ne.symm hk₀b)]
    exact hw2
  · rw [dlookup_derase_other _ (Ne.symm hk₀b)]
    exact hb1
  · rw [dlookup_derase_other _ (Ne.symm hk₀a)]
    exact ha2
  · intro x hxa hxb
    by_cases hx : x = k₀
    · subst hx
      rw [dlookup_derase_self _ hn1, dlookup_derase_self _ hn2]
    · rw [dlookup_derase_other _ hx, dlookup_derase_other _ hx]
      exact helse x hxa hxb

theorem exceptAtEq_dset {ka kb : String} {r1 r2 : Row}
    (hex : exceptAtEq ka kb r1 r2) (k₀ : String) (w₀ : Val)
    (hk₀a : k₀ ≠ ka) (hk₀b : k₀ ≠ kb) :
    exceptAtEq ka kb (dset r1 k₀ w₀) (dset r2 k₀ w₀) := by
  obtain ⟨⟨w, hw1, hw2⟩, hb1, ha2, helse⟩ := hex
  refine ⟨⟨w, ?_, ?_⟩, ?_, ?_, ?_⟩
  · rw [dlookup_dset, if_neg (Ne.symm hk₀a)]
    exact hw1
  · rw [dlookup_dset, if_neg (Ne.symm hk₀b)]
    exact hw2
  · rw [dlookup_dset, if_neg (Ne.symm hk₀b)]
    exact hb1
  · rw [dlookup_dset, if_neg (Ne.symm hk₀a)]
    exact ha2
  · intro x hxa hxb
    rw [dlookup_dset, dlookup_dset]
    by_cases hx : x = k₀
    · rw [if_pos hx, if_pos hx]
    · rw [if_neg hx, if_neg hx]
      exact helse x hxa hxb

theorem dlookup_append_self (pre post : List (String × Val)) (x : String) (v : Val)
    (h : ∀ kv ∈ pre, kv.1 ≠ x) :
    dlookup (pre ++ (x, v) :: post) x = some v := by
  induction pre with
  | nil => simp [dlookup]
  | cons kv pre ih =>
    obtain ⟨k₀, v₀⟩ := kv
    have hk₀ : k₀ ≠ x := h (k₀, v₀) (List.mem_cons_self _ _)
    simp only [List.cons_append, dlookup, if_neg hk₀]
    exact ih (fun kv hm => h kv (List.mem_cons.mpr (Or.inr hm)))

theorem dlookup_append_other (pre post : List (String × Val)) (a b x : String)
    (v : Val) (hxa : x ≠ a) (hxb : x ≠ b) :
    dlookup (pre ++ (a, v) :: post) x = dlookup (pre ++ (b, v) :: post) x := by
  induction pre with
  | nil =>
    simp only [List.nil_append, dlookup,
      if_neg (fun hh : a = x => hxa hh.symm), if_neg (fun hh : b = x => hxb hh.symm)]
  | cons kv pre ih =>
    obtain ⟨k₀, v₀⟩ := kv
    simp only [List.cons_append, dlookup]
    by_cases hk : k₀ = x
    · rw [if_pos hk, if_pos hk]
    · rw [if_neg hk, if_neg hk]
      exact ih

theorem from_row_loop_shift (k : String) (v : Val)
    (hks : hasSigil k = false) (hkd : hasDot k = false)
    (pre post : List (String × Val)) (r1 r2 : Row) (dct : Dct)
    (havoid : ∀ kv ∈ pre ++ post,
      kv.1 ≠ k ∧ kv.1 ≠ "@" ++ k ∧ kv.1 ≠ "@" ++ ("@" ++ k))
    (hex : exceptAtEq ("@" ++ k) k r1 r2)
    (hn1 : (dkeys r1).Nodup) (hn2 : (dkeys r2).Nodup) :
    resPairMEq (from_row_loop (pre ++ ("@" ++ k, v) :: post) r1 dct)
      (from_row_loop (pre ++ (k, v) :: post) r2 dct) := by
  induction pre generalizing r1 r2 dct with
  | nil =>
    obtain ⟨⟨w, hw1, hw2⟩, hb1, ha2, helse⟩ := hex
    have hsat : hasSigil ("@" ++ k) = true := hasSigil_at k
    have hdat : ¬ (hasDot ("@" ++ k) = true) := by
      rw [hasDot_at, hkd]
      exact Bool.false_ne_true
    have hdp1 : dpop r1 ("@" ++ k) = some (w, derase r1 ("@" ++ k)) := by
      rw [dpop_eq, hw1]
      rfl
    have e1 : from_row_loop (("@" ++ k, v) :: post) r1 dct =
        from_row_loop post (dset (derase r1 ("@" ++ k)) k w) dct := by
      simp only [from_row_loop, if_pos hsat, hdp1, stripSigil_at, if_neg hdat]
    have hksneg : ¬ (hasSigil k = true) := by
      rw [hks]
      exact Bool.false_ne_true
    have hkdneg : ¬ (hasDot k = true) := by
      rw [hkd]
      exact Bool.false_ne_true
    have e2 : from_row_loop ((k, v) :: post) r2 dct = from_row_loop post r2 dct := by
      simp only [from_row_loop, if_neg hksneg, if_neg hkdneg]
    simp only [List.nil_append]
    rw [e1, e2]
    have hmeq : mEq (dset (derase r1 ("@" ++ k)) k w) r2 := by
      intro x
      rw [dlookup_dset]
      by_cases hx : x = k
      · rw [if_pos hx, hx]
        exact hw2.symm
      · rw [if_neg hx]
        by_cases hxa : x = "@" ++ k
        · rw [hxa, dlookup_derase_self _ hn1]
          exact ha2.symm
        · rw [dlookup_derase_other _ hxa]
          exact helse x hxa hx
    exact from_row_loop_mEq post _ _ dct hmeq
      (nodup_dset _ _ (nodup_derase _ hn1)) hn2
  | cons kv pre ih =>
    obtain ⟨k₀, v₀⟩ := kv
    obtain ⟨ha1, ha2, ha3⟩ := havoid (k₀, v₀)
      (by rw [List.cons_append]; exact List.mem_cons_self _ _)
    have havoid' : ∀ kv ∈ pre ++ post,
        kv.1 ≠ k ∧ kv.1 ≠ "@" ++ k ∧ kv.1 ≠ "@" ++ ("@" ++ k) :=
      fun kv hm => havoid kv (by rw [List.cons_append]; exact List.mem_cons.mpr (Or.inr hm))
    have hlk : dlookup r1 k₀ = dlookup r2 k₀ := hex.2.2.2 k₀ ha2 ha1
    simp only [List.cons_append]
    by_cases hs : hasSigil k₀ = true
    · cases hl : dlookup r1 k₀ with
      | none =>
        have hl2 : dlookup r2 k₀ = none := hlk.symm.trans hl
        have hdp1 : dpop r1 k₀ = none := by rw [dpop_eq, hl]; rfl
        have hdp2 : dpop r2 k₀ = none := by rw [dpop_eq, hl2]; rfl
        have e1 : from_row_loop ((k₀, v₀) :: (pre ++ ("@" ++ k, v) :: post)) r1 dct =
            .error .keyError := by
          simp only [from_row_loop, if_pos hs, hdp1]
        have e2 : from_row_loop ((k₀, v₀) :: (pre ++ (k, v) :: post)) r2 dct =
            .error .keyError := by
          simp only [from_row_loop, if_pos hs, hdp2]
        rw [e1, e2]
        exact rfl
      | some w₀ =>
        have hl2 : dlookup r2 k₀ = some w₀ := hlk.symm.trans hl
        have hdp1 : dpop r1 k₀ = some (w₀, derase r1 k₀) := by rw [dpop_eq, hl]; rfl
        have hdp2 : dpop r2 k₀ = some (w₀, derase r2 k₀) := by rw [dpop_eq, hl2]; rfl
        have hstrip_a : stripSigil k₀ ≠ "@" ++ k := by
          intro hh
          exact ha3 (by rw [stripSigil_spec hs, hh])
        have hstrip_b : stripSigil k₀ ≠ k := by
          intro hh
          exact ha2 (by rw [stripSigil_spec hs, hh])
        have hex' : exceptAtEq ("@" ++ k) k
            (dset (derase r1 k₀) (stripSigil k₀) w₀)
            (dset (derase r2 k₀) (stripSigil k₀) w₀) :=
          exceptAtEq_dset (exceptAtEq_derase hex k₀ ha2 ha1 hn1 hn2) _ w₀
            hstrip_a hstrip_b
        have hn1' : (dkeys (dset (derase r1 k₀) (stripSigil k₀) w₀)).Nodup :=
          nodup_dset _ _ (nodup_derase _ hn1)
        have hn2' : (dkeys (dset (derase r2 k₀) (stripSigil k₀) w₀)).Nodup :=
          nodup_dset _ _ (nodup_derase _ hn2)
        by_cases hd : hasDot k₀ = true
        · cases hsp : splitTwo k₀ with
          | none =>
            have e1 : from_row_loop ((k₀, v₀) :: (pre ++ ("@" ++ k, v) :: post)) r1 dct =
                .error .valueError := by
              simp only [from_row_loop, if_pos hs, hdp1, if_pos hd, hsp]
            have e2 : from_row_loop ((k₀, v₀) :: (pre ++ (k, v) :: post)) r2 dct =
                .error .valueError := by
              simp only [from_row_loop, if_pos hs, hdp2, if_pos hd, hsp]
            rw [e1, e2]
            exact rfl
          | some pc =>
            have hlk' : dlookup (dset (derase r1 k₀) (stripSigil k₀) w₀) k₀ =
                dlookup (dset (derase r2 k₀) (stripSigil k₀) w₀) k₀ :=
              hex'.2.2.2 k₀ ha2 ha1
            cases hl' : dlookup (dset (derase r1 k₀) (stripSigil k₀) w₀) k₀ with
            | none =>
              have hl2' : dlookup (dset (derase r2 k₀) (stripSigil k₀) w₀) k₀ = none :=
                hlk'.symm.trans hl'
              have hdp1' : dpop (dset (derase r1 k₀) (stripSigil k₀) w₀) k₀ = none := by
                rw [dpop_eq, hl']; rfl
              have hdp2' : dpop (dset (derase r2 k₀) (stripSigil k₀) w₀) k₀ = none := by
                rw [dpop_eq, hl2']; rfl
              have e1 : from_row_loop ((k₀, v₀) :: (pre ++ ("@" ++ k, v) :: post)) r1 dct =
                  .error .keyError := by
                simp only [from_row_loop, if_pos hs, hdp1, if_pos hd, hsp, hdp1']
              have e2 : from_row_loop ((k₀, v₀) :: (pre ++ (k, v) :: post)) r2 dct =
                  .error .keyError := by
                simp only [from_row_loop, if_pos hs, hdp2, if_pos hd, hsp, hdp2']
              rw [e1, e2]
              exact rfl
            | some w₂ =>
              have hl2' : dlookup (dset (derase r2 k₀) (stripSigil k₀) w₀) k₀ = some w₂ :=
                hlk'.symm.trans hl'
              have hdp1' : dpop (dset (derase r1 k₀) (stripSigil k₀) w₀) k₀ =
                  some (w₂, derase (dset (derase r1 k₀) (stripSigil k₀) w₀) k₀) := by
                rw [dpop_eq, hl']; rfl
              have hdp2' : dpop (dset (derase r2 k₀) (stripSigil k₀) w₀) k₀ =
                  some (w₂, derase (dset (derase r2 k₀) (stripSigil k₀) w₀) k₀) := by
                rw [dpop_eq, hl2']; rfl
              have e1 : from_row_loop ((k₀, v₀) :: (pre ++ ("@" ++ k, v) :: post)) r1 dct =
                  from_row_loop (pre ++ ("@" ++ k, v) :: post)
                    (derase (dset (derase r1 k₀) (stripSigil k₀) w₀) k₀)
                    (dctAdd dct pc.1 pc.2 v₀) := by
                simp only [from_row_loop, if_pos hs, hdp1, if_pos hd, hsp, hdp1']
              have e2 : from_row_loop ((k₀, v₀) :: (pre ++ (k, v) :: post)) r2 dct =
                  from_row_loop (pre ++ (k, v) :: post)
                    (derase (dset (derase r2 k₀) (stripSigil k₀) w₀) k₀)
                    (dctAdd dct pc.1 pc.2 v₀) := by
                simp only [from_row_loop, if_pos hs, hdp2, if_pos hd, hsp, hdp2']
              rw [e1, e2]
              exact ih _ _ _ havoid'
                (exceptAtEq_derase hex' k₀ ha2 ha1 hn1' hn2')
                (nodup_derase _ hn1') (nodup_derase _ hn2')
        · have e1 : from_row_loop ((k₀, v₀) :: (pre ++ ("@" ++ k, v) :: post)) r1 dct =
              from_row_loop (pre ++ ("@" ++ k, v) :: post)
                (dset (derase r1 k₀) (stripSigil k₀) w₀) dct := by
            simp only [from_row_loop, if_pos hs, hdp1, if_neg hd]
          have e2 : from_row_loop ((k₀, v₀) :: (pre ++ (k, v) :: post)) r2 dct =
              from_row_loop (pre ++ (k, v) :: post)
                (dset (derase r2 k₀) (stripSigil k₀) w₀) dct := by
            simp only [from_row_loop, if_pos hs, hdp2, if_neg hd]
          rw [e1, e2]
          exact ih _ _ _ havoid' hex' hn1' hn2'
    · by_cases hd : hasDot k₀ = true
      · cases hsp : splitTwo k₀ with
        | none =>
          have e1 : from_row_loop ((k₀, v₀) :: (pre ++ ("@" ++ k, v) :: post)) r1 dct =
              .error .valueError := by
            simp only [from_row_loop, if_neg hs, if_pos hd, hsp]
          have e2 : from_row_loop ((k₀, v₀) :: (pre ++ (k, v) :: post)) r2 dct =
              .error .valueError := by
            simp only [from_row_loop, if_neg hs, if_pos hd, hsp]
          rw [e1, e2]
          exact rfl
        | some pc =>
          cases hl : dlookup r1 k₀ with
          | none =>
            have hl2 : dlookup r2 k₀ = none := hlk.symm.trans hl
            have hdp1 : dpop r1 k₀ = none := by rw [dpop_eq, hl]; rfl
            have hdp2 : dpop r2 k₀ = none := by rw [dpop_eq, hl2]; rfl
            have e1 : from_row_loop ((k₀, v₀) :: (pre ++ ("@" ++ k, v) :: post)) r1 dct =
                .error .keyError := by
              simp only [from_row_loop, if_neg hs, if_pos hd, hsp, hdp1]
            have e2 : from_row_loop ((k₀, v₀) :: (pre ++ (k, v) :: post)) r2 dct =
                .error .keyError := by
              simp only [from_row_loop, if_neg hs, if_pos hd, hsp, hdp2]
            rw [e1, e2]
            exact rfl
          | some w₀ =>
            have hl2 : dlookup r2 k₀ = some w₀ := hlk.symm.trans hl
            have hdp1 : dpop r1 k₀ = some (w₀, derase r1 k₀) := by rw [dpop_eq, hl]; rfl
            have hdp2 : dpop r2 k₀ = some (w₀, derase r2 k₀) := by rw [dpop_eq, hl2]; rfl
            have e1 : from_row_loop ((k₀, v₀) :: (pre ++ ("@" ++ k, v) :: post)) r1 dct =
                from_row_loop (pre ++ ("@" ++ k, v) :: post) (derase r1 k₀)
                  (dctAdd dct pc.1 pc.2 v₀) := by
              simp only [from_row_loop, if_neg hs, if_pos hd, hsp, hdp1]
            have e2 : from_row_loop ((k₀, v₀) :: (pre ++ (k, v) :: post)) r2 dct =
                from_row_loop (pre ++ (k, v) :: post) (derase r2 k₀)
                  (dctAdd dct pc.1 pc.2 v₀) := by
              simp only [from_row_loop, if_neg hs, if_pos hd, hsp, hdp2]
            rw [e1, e2]
            exact ih _ _ _ havoid'
              (exceptAtEq_derase hex k₀ ha2 ha1 hn1 hn2)
              (nodup_derase _ hn1) (nodup_derase _ hn2)
      · have e1 : from_row_loop ((k₀, v₀) :: (pre ++ ("@" ++ k, v) :: post)) r1 dct =
            from_row_loop (pre ++ ("@" ++ k, v) :: post) r1 dct := by
          simp only [from_row_loop, if_neg hs, if_neg hd]
        have e2 : from_row_loop ((k₀, v₀) :: (pre ++ (k, v) :: post)) r2 dct =
            from_row_loop (pre ++ (k, v) :: post) r2 dct := by
          simp only [from_row_loop, if_neg hs, if_neg hd]
        rw [e1, e2]
        exact ih _ _ _ havoid' hex hn1 hn2

/-- C3 counterexample: a key carrying both the sigil and a separator is
not handled like its unprefixed form: on the row with single key `@a.b`
the sigil is stripped but the later `row.pop(key)` still uses the old key
and raises `KeyError`, while the row with key `a.b` maps successfully to a
nested object. -/
theorem c3_counterexample_sigil_dotted_key :
    from_row_result [("@a.b", Val.atom 0)] = .error .keyError ∧
    from_row_result [("a.b", Val.atom 0)] = .ok [("a", Val.obj [("b", Val.atom 0)])] ∧
    ¬ resMEq (from_row_result [("@a.b", Val.atom 0)])
        (from_row_result [("a.b", Val.atom 0)]) := by
  refine ⟨rfl, rfl, fun hc => ?_⟩
  rw [(rfl : from_row_result [("@a.b", Val.atom 0)] = .error .keyError),
    (rfl : from_row_result [("a.b", Val.atom 0)] =
      .ok [("a", Val.obj [("b", Val.atom 0)])])] at hc
  exact hc

/-- C3 amended: for a sigil-prefixed key `"@" ++ k` whose stripped form `k`
contains no separator and no sigil of its own, and which cannot collide
with the rest of the row (no other key equal to `k`, `"@" ++ k` or
`"@@" ++ k`), `from_row` treats the row exactly like the same row with the
unprefixed key: the outcomes agree as key-value maps (same error, or
success with pointwise-equal final mappings).  For a sigil key that also
contains a separator the two rows diverge (see the counterexample). -/
theorem c3_amended_sigil_strip (k : String) (v : Val)
    (pre post : List (String × Val))
    (hks : hasSigil k = false) (hkd : hasDot k = false)
    (havoid : ∀ kv ∈ pre ++ post,
      kv.1 ≠ k ∧ kv.1 ≠ "@" ++ k ∧ kv.1 ≠ "@" ++ ("@" ++ k))
    (hn1 : (dkeys (pre ++ ("@" ++ k, v) :: post)).Nodup)
    (hn2 : (dkeys (pre ++ (k, v) :: post)).Nodup) :
    resMEq (from_row_result (pre ++ ("@" ++ k, v) :: post))
      (from_row_result (pre ++ (k, v) :: post)) := by
  have hpre_at : ∀ kv ∈ pre, kv.1 ≠ "@" ++ k :=
    fun kv hm => (havoid kv (List.mem_append.mpr (Or.inl hm))).2.1
  have hpre_k : ∀ kv ∈ pre, kv.1 ≠ k :=
    fun kv hm => (havoid kv (List.mem_append.mpr (Or.inl hm))).1
  have hex : exceptAtEq ("@" ++ k) k (pre ++ ("@" ++ k, v) :: post)
      (pre ++ (k, v) :: post) := by
    refine ⟨⟨v, dlookup_append_self pre post _ v hpre_at,
      dlookup_append_self pre post _ v hpre_k⟩, ?_, ?_, ?_⟩
    · rw [dlookup_eq_none_iff]
      intro hmem
      simp only [dkeys, List.map_append, List.map_cons, List.mem_append,
        List.mem_cons] at hmem
      rcases hmem with hm | heq | hm
      · obtain ⟨kv, hkv, hfst⟩ := List.mem_map.mp hm
        exact (havoid kv (List.mem_append.mpr (Or.inl hkv))).1 hfst
      · exact at_ne k heq.symm
      · obtain ⟨kv, hkv, hfst⟩ := List.mem_map.mp hm
        exact (havoid kv (List.mem_append.mpr (Or.inr hkv))).1 hfst
    · rw [dlookup_eq_none_iff]
      intro hmem
      simp only [dkeys, List.map_append, List.map_cons, List.mem_append,
        List.mem_cons] at hmem
      rcases hmem with hm | heq | hm
      · obtain ⟨kv, hkv, hfst⟩ := List.mem_map.mp hm
        exact (havoid kv (List.mem_append.mpr (Or.inl hkv))).2.1 hfst
      · exact at_ne k heq
      · obtain ⟨kv, hkv, hfst⟩ := List.mem_map.mp hm
        exact (havoid kv (List.mem_append.mpr (Or.inr hkv))).2.1 hfst
    · intro x hxa hxb
      exact dlookup_append_other pre post _ _ x v hxa hxb
  have hloop := from_row_loop_shift k v hks hkd pre post
    (pre ++ ("@" ++ k, v) :: post) (pre ++ (k, v) :: post) []
    havoid hex hn1 hn2
  unfold from_row_result
  cases hA : from_row_loop (pre ++ ("@" ++ k, v) :: post)
      (pre ++ ("@" ++ k, v) :: post) [] with
  | error eA =>
    cases hB : from_row_loop (pre ++ (k, v) :: post) (pre ++ (k, v) :: post) [] with
    | error eB =>
      rw [hA, hB] at hloop
      exact hloop
    | ok pB =>
      rw [hA, hB] at hloop
      exact hloop.elim
  | ok pA =>
    cases hB : from_row_loop (pre ++ (k, v) :: post) (pre ++ (k, v) :: post) [] with
    | error eB =>
      rw [hA, hB] at hloop
      exact hloop.elim
    | ok pB =>
      rw [hA, hB] at hloop
      obtain ⟨hm, hdcteq⟩ := hloop
      show mEq (dupdate pA.1 pA.2) (dupdate pB.1 pB.2)
      rw [hdcteq]
      exact dupdate_mEq _ hm

/-- Witness for the amended C3 at the single-entry rows with keys `@x`
and `x`. -/
theorem c3_amended_sigil_strip_witness :
    hasSigil "x" = false ∧ hasDot "x" = false ∧
    resMEq (from_row_result [("@x", Val.atom 0)])
      (from_row_result [("x", Val.atom 0)]) :=
  ⟨by decide, by decide, by
    have h := c3_amended_sigil_strip "x" (Val.atom 0) [] []
      (by decide) (by decide)
      (by intro kv hm; simp at hm)
      (by simp [dkeys]) (by simp [dkeys])
    exact h⟩

end McpClickhouse
